import Mathlib

/-!
Verification of the register bookkeeping and composite-index model of
`cirq-ft/cirq_ft/infra/gate_with_registers.py`.

The Python module is embedded shallowly:

* `Register`, `Registers`, `SelectionRegister`, `SelectionRegisters` become
  Lean structures; the validating constructors (`Registers.__init__`, the
  attr validator of `SelectionRegister.iteration_length`) become functions
  returning `Except PyErr _`, where `PyErr` records which Python exception
  class is raised.
* Python dicts built by insertion are association lists in insertion order;
  a repeated key overwrites, so lookup (`dictGet`) returns the LAST binding.
* Python list/tuple slicing `xs[a:b]` clamps out-of-range bounds and never
  fails (`pySlice`); integer indexing supports negative indices and raises
  `IndexError` out of range (`pyGetIdx`).
* `SelectionRegisters` computes its suffix-product table with
  `np.multiply.accumulate` and `total_iteration_size` with `np.product`.
  NumPy converts the Python int tuple to an array whose dtype depends on the
  values: all in `[-2^63, 2^63)` gives int64 (arithmetic wraps modulo 2^64,
  interpreted as a signed value), all in `[0, 2^64)` with one at least `2^63`
  gives uint64 (wraps modulo 2^64 unsigned), and any value outside gives an
  object array (exact Python int arithmetic).  This dtype selection and the
  wrap-around are modelled explicitly (`NpDtype`, `wrapS64`, `npWrapOf`);
  the theorems below only ever evaluate the int64 and object regimes.
  (In the uint64 regime `np.append(arr, [1])` additionally promotes to
  float64; no theorem below touches that regime.)
* `cirq.NamedQubit` handles compare by their name string, so a handle is
  embedded as its name `String`; the f-string `f"{name}{i}"` of
  `NamedQubit.range` formats `i` in decimal (`natDecimal`).
-/

/-- The Python exception classes raised (or contrasted with) in the module. -/
inductive PyErr where
  | valueError (msg : String)
  | indexError (msg : String)
  | keyError (msg : String)
  | typeError (msg : String)
  | assertionError (msg : String)
deriving DecidableEq

deriving instance DecidableEq for Except

/-- `True` exactly on `Except.ok`, the embedding of "the call does not raise". -/
def isOkE {ε α : Type} : Except ε α → Bool
  | .ok _ => true
  | .error _ => false

/-- `cirq_ft.Register`: a named block of `bitsize` (qu)bit positions.
The Python class validates nothing ("the unvalidated leaf"); in particular
`bitsize = 0` is accepted. -/
structure Register where
  name : String
  bitsize : Nat
deriving DecidableEq

/-- `cirq_ft.Registers`: the ordered collection; the name-uniqueness check of
`__init__` lives in `Registers.init` below. -/
structure Registers where
  registers : List Register
deriving DecidableEq

/-- `Registers.__init__`: builds the name-keyed dict and raises `ValueError`
when the dict has fewer entries than the tuple, i.e. when a name repeats.
`List.dedup` has the dict's key count: one entry per distinct name. -/
def Registers.init (regs : List Register) : Except PyErr Registers :=
  if regs.length ≠ ((regs.map Register.name).dedup).length then
    .error (.valueError "Please provide unique register names.")
  else
    .ok ⟨regs⟩

/-- `Registers.bitsize`: sum of the member bitsizes. -/
def Registers.bitsize (r : Registers) : Nat :=
  (r.registers.map Register.bitsize).sum

/-- Lookup in a Python dict represented as an association list in insertion
order: a repeated key was overwritten, so the last binding wins. -/
def dictGet {β : Type} (d : List (String × β)) (k : String) : Option β :=
  ((d.filter (fun p => p.1 == k)).getLast?).map Prod.snd

/-- The slice `qubits[base : base + reg.bitsize]` walked along the register
list; Python slicing clamps, hence `drop`/`take` with no length check. -/
def splitQubitsGo {α : Type} (regs : List Register) (qubits : List α) (base : Nat) :
    List (String × List α) :=
  match regs with
  | [] => []
  | reg :: rest =>
      (reg.name, (qubits.drop base).take reg.bitsize) ::
        splitQubitsGo rest qubits (base + reg.bitsize)

/-- `Registers.split_qubits`: partitions a flat handle sequence into the
name-keyed dict of contiguous sub-sequences, in declaration order. -/
def Registers.split_qubits {α : Type} (r : Registers) (qubits : List α) :
    List (String × List α) :=
  splitQubitsGo r.registers qubits 0

/-- A value of the `**qubit_regs` dict of `merge_qubits`: either a bare
`cirq.Qid` (wrapped into a singleton by the `isinstance` check) or a
sequence of them. -/
inductive QubitArg (α : Type) where
  | qid (q : α)
  | seq (qs : List α)
deriving DecidableEq

/-- The sequence a `QubitArg` denotes after the `isinstance(qubits, cirq.Qid)`
normalisation. -/
def QubitArg.toList {α : Type} : QubitArg α → List α
  | .qid q => [q]
  | .seq qs => qs

/-- The loop body of `merge_qubits`: for each register in order, assert the
name is present, normalise, assert the length matches the bitsize, append. -/
def mergeQubitsGo {α : Type} (regs : List Register)
    (qubit_regs : List (String × QubitArg α)) : Except PyErr (List α) :=
  match regs with
  | [] => .ok []
  | reg :: rest =>
      match dictGet qubit_regs reg.name with
      | none => .error (.assertionError "All qubit registers must pe present")
      | some arg =>
          let qubits := arg.toList
          if qubits.length = reg.bitsize then
            (mergeQubitsGo rest qubit_regs).map (fun tail => qubits ++ tail)
          else
            .error (.assertionError
              (reg.name ++ " register must of length " ++ toString reg.bitsize))

/-- `Registers.merge_qubits`: concatenates the named sub-sequences back into
one flat sequence, register by register in declaration order. -/
def Registers.merge_qubits {α : Type} (r : Registers)
    (qubit_regs : List (String × QubitArg α)) : Except PyErr (List α) :=
  mergeQubitsGo r.registers qubit_regs

/-- Python's decimal rendering of a non-negative int, as used by the f-string
`f"{name}{i}"` in `get_named_qubits` (`0 ↦ "0"`, `123 ↦ "123"`). -/
def natDecimal (n : Nat) : String :=
  if h : n < 10 then
    String.mk [Char.ofNat (48 + n)]
  else
    natDecimal (n / 10) ++ String.mk [Char.ofNat (48 + n % 10)]
decreasing_by
  exact Nat.div_lt_self (Nat.lt_of_lt_of_le (by decide) (Nat.le_of_not_lt h)) (by decide)

/-- The helper `qubits_for_reg` of `get_named_qubits`: one handle named
exactly `name` when `bitsize == 1`, else `cirq.NamedQubit.range(bitsize,
prefix=name)`, whose handles are named `name + decimal index`. -/
def qubitsForReg (nm : String) (bitsize : Nat) : List String :=
  if bitsize = 1 then [nm]
  else (List.range bitsize).map (fun i => nm ++ natDecimal i)

/-- `Registers.get_named_qubits`: the dict mapping each register name to its
handle list, in declaration order. -/
def Registers.get_named_qubits (r : Registers) : List (String × List String) :=
  r.registers.map (fun reg => (reg.name, qubitsForReg reg.name reg.bitsize))

/-- `cirq_ft.SelectionRegister`: a `Register` with an iteration length. -/
structure SelectionRegister extends Register where
  iteration_length : Int
deriving DecidableEq

/-- The attr validator `validate_iteration_length`: construction raises
`ValueError` unless `0 <= value <= 2**bitsize`. -/
def SelectionRegister.mk? (nm : String) (bitsize : Nat) (value : Int) :
    Except PyErr SelectionRegister :=
  if ¬ (0 ≤ value ∧ value ≤ (2 : Int) ^ bitsize) then
    .error (.valueError ("iteration length must be in range [0, 2^" ++
      toString bitsize ++ "]"))
  else
    .ok ⟨⟨nm, bitsize⟩, value⟩

/-- `cirq_ft.SelectionRegisters`: ordered collection of selection registers.
The cached `iteration_lengths` tuple and suffix-product array are pure
derivations of the register list and are recomputed by the accessors below. -/
structure SelectionRegisters where
  registers : List SelectionRegister
deriving DecidableEq

/-- `SelectionRegisters.__init__` delegates the duplicate-name check to
`Registers.__init__` (`super().__init__`). -/
def SelectionRegisters.init (regs : List SelectionRegister) :
    Except PyErr SelectionRegisters :=
  if regs.length ≠ ((regs.map (fun r => r.name)).dedup).length then
    .error (.valueError "Please provide unique register names.")
  else
    .ok ⟨regs⟩

/-- The `iteration_lengths` tuple, in declaration order. -/
def SelectionRegisters.iteration_lengths (rs : SelectionRegisters) : List Int :=
  rs.registers.map SelectionRegister.iteration_length

/-- The NumPy dtype chosen when converting a tuple of Python ints. -/
inductive NpDtype where
  | int64
  | uint64
  | object
deriving DecidableEq

/-- NumPy's dtype selection for a tuple of Python ints. -/
def npDtypeOf (xs : List Int) : NpDtype :=
  if xs.all (fun x => decide (-(2 : Int) ^ 63 ≤ x) && decide (x < (2 : Int) ^ 63)) then
    .int64
  else if xs.all (fun x => decide (0 ≤ x) && decide (x < (2 : Int) ^ 64)) then
    .uint64
  else
    .object

/-- Signed 64-bit wrap-around: the value an int64 holds after an operation
whose exact result is `x`. -/
def wrapS64 (x : Int) : Int :=
  (x + 2 ^ 63) % 2 ^ 64 - 2 ^ 63

/-- The per-operation coercion NumPy applies in each dtype. -/
def npWrapOf : NpDtype → Int → Int
  | .int64 => wrapS64
  | .uint64 => fun x => x % 2 ^ 64
  | .object => fun x => x

/-- `np.multiply.accumulate` continued from a running product `acc`. -/
def npMulAccumFrom (w : Int → Int) (acc : Int) : List Int → List Int
  | [] => []
  | x :: rest =>
      let a := w (acc * x)
      a :: npMulAccumFrom w a rest

/-- `np.multiply.accumulate`: element 0 is kept, each later element is the
previous accumulated value times it, wrapped per dtype. -/
def npMulAccum (w : Int → Int) : List Int → List Int
  | [] => []
  | x :: rest => x :: npMulAccumFrom w x rest

/-- The `_suffix_prod` array of `SelectionRegisters.__init__`:
`np.append(np.multiply.accumulate(iteration_lengths[::-1])[::-1], [1])`. -/
def npSuffixProd (lengths : List Int) : List Int :=
  (npMulAccum (npWrapOf (npDtypeOf lengths)) lengths.reverse).reverse ++ [1]

/-- `SelectionRegisters.to_flat_idx`: asserts one value per register, then
returns `sum(v * self._suffix_prod[i + 1] ...)`.  Each product and each
addition of the sum is performed in the array's dtype, hence wrapped. -/
def SelectionRegisters.to_flat_idx (rs : SelectionRegisters) (vals : List Int) :
    Except PyErr Int :=
  if vals.length = rs.registers.length then
    let sp := npSuffixProd rs.iteration_lengths
    let w := npWrapOf (npDtypeOf rs.iteration_lengths)
    .ok (((vals.zip (sp.drop 1)).map (fun p => w (p.1 * p.2))).foldl
      (fun acc t => w (acc + t)) 0)
  else
    .error (.assertionError "len of selection values must equal len of registers")

/-- `np.product` (i.e. `np.prod`) of a tuple of Python ints: a left fold of
the dtype-wrapped multiplication; the empty tuple gives `1` (NumPy returns
`1.0`, converted back by the surrounding `int(...)`). -/
def npProd (xs : List Int) : Int :=
  xs.foldl (fun acc x => npWrapOf (npDtypeOf xs) (acc * x)) 1

/-- `SelectionRegisters.total_iteration_size`:
`int(np.product(self.iteration_lengths))`. -/
def SelectionRegisters.total_iteration_size (rs : SelectionRegisters) : Int :=
  npProd rs.iteration_lengths

/-- Exact suffix products, written from the spec's description of the table:
`suffix[i] = product(iteration_lengths[i:])` with a trailing `1`. -/
def suffixProducts : List Int → List Int
  | [] => [1]
  | x :: rest =>
      match suffixProducts rest with
      | [] => [1]
      | y :: t => (x * y) :: y :: t

/-- The exact row-major flat index of the spec:
`sum(values[i] * product(L(i+1 .. n-1)))`. -/
def specFlatIdx (lengths vals : List Int) : Int :=
  ((vals.zip ((suffixProducts lengths).drop 1)).map (fun p => p.1 * p.2)).sum

/-- All value tuples `(i0, ..., i(n-1))` with `0 ≤ ik < Lk`, in lexicographic
order (first coordinate slowest-varying). -/
def lexTuples : List Int → List (List Int)
  | [] => [[]]
  | L :: rest =>
      (List.range L.toNat).flatMap
        (fun v => (lexTuples rest).map (fun t => (v : Int) :: t))

/-- The runtime kind of the key passed to `__getitem__`: a `slice` (step
`None`, as passed by slicing syntax without a step), an `int`, a `str`, or
any other object (the `else` branch). -/
inductive GetKey where
  | slc (start stop : Option Int)
  | num (i : Int)
  | str (s : String)
  | other
deriving DecidableEq

/-- Python's clamping of one slice bound against a sequence of length `n`:
negative bounds count from the end, out-of-range bounds clamp. -/
def pyBound (n : Nat) (v : Int) : Nat :=
  if v < 0 then (v + n).toNat else min v.toNat n

/-- Python slicing `xs[a:b]` (step `None`): never fails, returns the
elements at positions `a', ..., b' - 1` after clamping. -/
def pySlice {α : Type} (l : List α) (a b : Option Int) : List α :=
  let s := match a with | none => 0 | some v => pyBound l.length v
  let e := match b with | none => l.length | some v => pyBound l.length v
  (l.take e).drop s

/-- Python integer indexing `xs[i]`: negative indices count from the end;
`none` is the `IndexError` case. -/
def pyGetIdx {α : Type} (l : List α) (i : Int) : Option α :=
  if 0 ≤ i then l.get? i.toNat
  else if 0 ≤ i + l.length then l.get? (i + l.length).toNat
  else none

/-- Result type of `Registers.__getitem__`: a slice returns a new
`Registers`, an int or str key returns a single `Register`. -/
inductive GetItemRes (C R : Type) where
  | coll (rs : C)
  | reg (r : R)
deriving DecidableEq

/-- `Registers.__getitem__`: dispatch on the runtime kind of the key; a
slice rebuilds through `Registers(...)` (so through `__init__`), an unknown
name raises `KeyError` (dict lookup), an out-of-range position raises
`IndexError` (tuple indexing), and any other key kind raises
`IndexError("key ... must be of the type str/int/slice.")`. -/
def Registers.getItem (r : Registers) : GetKey → Except PyErr (GetItemRes Registers Register)
  | .slc a b => (Registers.init (pySlice r.registers a b)).map .coll
  | .num i =>
      match pyGetIdx r.registers i with
      | some reg => .ok (.reg reg)
      | none => .error (.indexError "tuple index out of range")
  | .str s =>
      match dictGet (r.registers.map (fun reg => (reg.name, reg))) s with
      | some reg => .ok (.reg reg)
      | none => .error (.keyError s)
  | .other => .error (.indexError "key must be of the type str/int/slice.")

/-- `SelectionRegisters.__getitem__`: same dispatch, rebuilding a
`SelectionRegisters` on a slice. -/
def SelectionRegisters.getItem (rs : SelectionRegisters) :
    GetKey → Except PyErr (GetItemRes SelectionRegisters SelectionRegister)
  | .slc a b => (SelectionRegisters.init (pySlice rs.registers a b)).map .coll
  | .num i =>
      match pyGetIdx rs.registers i with
      | some reg => .ok (.reg reg)
      | none => .error (.indexError "tuple index out of range")
  | .str s =>
      match dictGet (rs.registers.map (fun reg => (reg.name, reg))) s with
      | some reg => .ok (.reg reg)
      | none => .error (.keyError s)
  | .other => .error (.indexError "key must be of the type str/int/slice.")

/-- `True` exactly on a raised `TypeError`. -/
def isTypeError {α : Type} : Except PyErr α → Bool
  | .error (.typeError _) => true
  | _ => false

/-- `True` exactly on a raised `IndexError`. -/
def isIndexError {α : Type} : Except PyErr α → Bool
  | .error (.indexError _) => true
  | _ => false

/-- `GateWithRegisters._circuit_diagram_info_`: builds one label per flat
position (each register's name repeated `bitsize` times, in order), then
executes `wire_symbols[0] = self.__class__.__name__`, which raises
`IndexError` when the list is empty. -/
def circuitDiagramInfo (r : Registers) (className : String) :
    Except PyErr (List String) :=
  let wire_symbols := r.registers.flatMap (fun reg => List.replicate reg.bitsize reg.name)
  match wire_symbols with
  | [] => .error (.indexError "list assignment index out of range")
  | _ :: rest => .ok (className :: rest)

/-! ## Helper lemmas -/

theorem dedup_length_eq_iff {α : Type} [DecidableEq α] {l : List α} :
    l.dedup.length = l.length ↔ l.Nodup := by
  constructor
  · intro h
    have he : l.dedup = l := (List.dedup_sublist l).eq_of_length h
    rw [← he]
    exact List.nodup_dedup l
  · intro h
    rw [List.dedup_eq_self.2 h]

/-! ## Claim theorems -/

/-- C3: constructing a `Registers` (or `SelectionRegisters`) collection
succeeds exactly when member names are pairwise distinct, and a duplicate
name raises the `ValueError` of `Registers.__init__`. -/
theorem C3_unique_names_construction :
    (∀ regs : List Register,
      Registers.init regs =
        (if (regs.map Register.name).Nodup then .ok ⟨regs⟩
         else .error (.valueError "Please provide unique register names.")))
    ∧ (∀ regs : List SelectionRegister,
      SelectionRegisters.init regs =
        (if (regs.map (fun r => r.name)).Nodup then .ok ⟨regs⟩
         else .error (.valueError "Please provide unique register names."))) := by
  constructor
  · intro regs
    have h1 : ((regs.map Register.name).dedup).length = regs.length ↔
        (regs.map Register.name).Nodup := by
      rw [← List.length_map regs Register.name]
      exact dedup_length_eq_iff
    unfold Registers.init
    by_cases h : (regs.map Register.name).Nodup
    · rw [if_pos h, if_neg (by simp [(h1.2 h).symm])]
    · rw [if_neg h, if_pos (fun heq => h (h1.1 heq.symm))]
  · intro regs
    have h1 : ((regs.map (fun r : SelectionRegister => r.name)).dedup).length = regs.length ↔
        (regs.map (fun r : SelectionRegister => r.name)).Nodup := by
      rw [← List.length_map regs (fun r : SelectionRegister => r.name)]
      exact dedup_length_eq_iff
    unfold SelectionRegisters.init
    by_cases h : (regs.map (fun r : SelectionRegister => r.name)).Nodup
    · rw [if_pos h, if_neg (by simp [(h1.2 h).symm])]
    · rw [if_neg h, if_pos (fun heq => h (h1.1 heq.symm))]

/-- C4: `SelectionRegister` construction succeeds exactly when
`0 ≤ iteration_length ≤ 2^bitsize`; in particular, for every bitsize `b`,
length `2^b + 1` fails while `0` and `2^b` succeed. -/
theorem C4_iteration_length_validation (nm : String) (b : Nat) (v : Int) :
    (isOkE (SelectionRegister.mk? nm b v) = true ↔ (0 ≤ v ∧ v ≤ 2 ^ b))
    ∧ isOkE (SelectionRegister.mk? nm b 0) = true
    ∧ isOkE (SelectionRegister.mk? nm b ((2 : Int) ^ b)) = true
    ∧ isOkE (SelectionRegister.mk? nm b ((2 : Int) ^ b + 1)) = false := by
  have hp : (0 : Int) < 2 ^ b := pow_pos (by norm_num) b
  refine ⟨?_, ?_, ?_, ?_⟩
  · by_cases h : (0 ≤ v ∧ v ≤ (2 : Int) ^ b)
    · rw [SelectionRegister.mk?, if_neg (not_not_intro h)]
      simp [isOkE, h]
    · rw [SelectionRegister.mk?, if_pos h]
      simp [isOkE, h]
  · rw [SelectionRegister.mk?, if_neg (not_not_intro ⟨le_refl 0, le_of_lt hp⟩)]
    rfl
  · rw [SelectionRegister.mk?, if_neg (not_not_intro ⟨le_of_lt hp, le_refl _⟩)]
    rfl
  · rw [SelectionRegister.mk?, if_pos (fun hc => absurd hc.2 (by omega))]
    rfl

/-- C6 (evaluation at the failing input): on iteration lengths
`(2^32, 2^32)` — a legal `SelectionRegisters` instance — the code's
`total_iteration_size` returns `0` because `np.product` multiplies in a
wrapped int64 array, while the exact mathematical product of the
iteration lengths is `2^64`. -/
theorem C6_total_iteration_size_wraps :
    isOkE (SelectionRegister.mk? "x" 32 ((2 : Int) ^ 32)) = true
    ∧ SelectionRegisters.init [⟨⟨"x", 32⟩, 2 ^ 32⟩, ⟨⟨"y", 32⟩, 2 ^ 32⟩] =
        .ok ⟨[⟨⟨"x", 32⟩, 2 ^ 32⟩, ⟨⟨"y", 32⟩, 2 ^ 32⟩]⟩
    ∧ (⟨[⟨⟨"x", 32⟩, 2 ^ 32⟩, ⟨⟨"y", 32⟩, 2 ^ 32⟩]⟩ :
        SelectionRegisters).total_iteration_size = 0
    ∧ (⟨[⟨⟨"x", 32⟩, 2 ^ 32⟩, ⟨⟨"y", 32⟩, 2 ^ 32⟩]⟩ :
        SelectionRegisters).iteration_lengths.prod = 2 ^ 64
    ∧ (0 : Int) ≠ 2 ^ 64 := by
  refine ⟨by decide, by decide, by decide, by decide, by decide⟩

/-- C7 (counterexample): indexing with an unsupported key kind raises
`IndexError` — a lookup error — not the `TypeError` the claim states. -/
theorem C7_counterexample :
    Registers.init [⟨"theta", 1⟩] = .ok ⟨[⟨"theta", 1⟩]⟩
    ∧ isTypeError (Registers.getItem ⟨[⟨"theta", 1⟩]⟩ GetKey.other) = false
    ∧ isIndexError (Registers.getItem ⟨[⟨"theta", 1⟩]⟩ GetKey.other) = true := by
  refine ⟨by decide, by decide, by decide⟩

/-- C7 (amended): on both `Registers` and `SelectionRegisters`, a key that
is not an int, str or slice raises
`IndexError("key ... must be of the type str/int/slice.")`. -/
theorem C7_unsupported_key_raises_index_error :
    (∀ r : Registers, Registers.getItem r GetKey.other =
      .error (.indexError "key must be of the type str/int/slice."))
    ∧ (∀ rs : SelectionRegisters, SelectionRegisters.getItem rs GetKey.other =
      .error (.indexError "key must be of the type str/int/slice.")) :=
  ⟨fun _ => rfl, fun _ => rfl⟩

/-- C8 (counterexample): a non-empty register collection whose only member
has `bitsize = 0` is accepted by `Registers.__init__`, yet the default
diagram-label derivation raises `IndexError` on it instead of producing
`bitsize` labels, so non-emptiness of the collection is not a sufficient
precondition. -/
theorem C8_counterexample :
    Registers.init [⟨"a", 0⟩] = .ok ⟨[⟨"a", 0⟩]⟩
    ∧ (⟨[⟨"a", 0⟩]⟩ : Registers).registers ≠ []
    ∧ circuitDiagramInfo ⟨[⟨"a", 0⟩]⟩ "MyGate" =
        .error (.indexError "list assignment index out of range") := by
  refine ⟨by decide, by decide, by decide⟩

/-- C8 (amended): whenever the collection has at least one flat index
position (`0 < bitsize`), the default diagram-label derivation returns
exactly `bitsize` labels: each register's name repeated `bitsize` times in
declaration order, with the label at flat position `0` overwritten by the
implementer's type name. -/
theorem C8_diagram_labels (r : Registers) (cls : String) (h : 0 < r.bitsize) :
    circuitDiagramInfo r cls =
      .ok (cls :: (r.registers.flatMap
        (fun reg => List.replicate reg.bitsize reg.name)).tail)
    ∧ (cls :: (r.registers.flatMap
        (fun reg => List.replicate reg.bitsize reg.name)).tail).length = r.bitsize := by
  have hlen : (r.registers.flatMap
      (fun reg => List.replicate reg.bitsize reg.name)).length = r.bitsize := by
    rw [List.length_flatMap]
    unfold Registers.bitsize
    congr 1
    simp [List.map_map, Function.comp]
  rcases hw : r.registers.flatMap (fun reg => List.replicate reg.bitsize reg.name) with
    _ | ⟨a, rest⟩
  · rw [hw] at hlen
    simp at hlen
    omega
  · constructor
    · simp only [circuitDiagramInfo, hw, List.tail_cons]
    · rw [hw] at hlen
      simpa using hlen

/-- C8 witness: the amended theorem at the registers `{x: 1, y: 2}`. -/
theorem C8_diagram_labels_witness :
    0 < (⟨[⟨"x", 1⟩, ⟨"y", 2⟩]⟩ : Registers).bitsize
    ∧ (circuitDiagramInfo ⟨[⟨"x", 1⟩, ⟨"y", 2⟩]⟩ "MyGate" =
        .ok ("MyGate" :: ((⟨[⟨"x", 1⟩, ⟨"y", 2⟩]⟩ : Registers).registers.flatMap
          (fun reg => List.replicate reg.bitsize reg.name)).tail)
      ∧ ("MyGate" :: ((⟨[⟨"x", 1⟩, ⟨"y", 2⟩]⟩ : Registers).registers.flatMap
          (fun reg => List.replicate reg.bitsize reg.name)).tail).length =
        (⟨[⟨"x", 1⟩, ⟨"y", 2⟩]⟩ : Registers).bitsize) :=
  ⟨by decide, C8_diagram_labels ⟨[⟨"x", 1⟩, ⟨"y", 2⟩]⟩ "MyGate" (by decide)⟩

/-- C10: the empty `SelectionRegisters` is accepted, `to_flat_idx()` on it
returns `0`, and `total_iteration_size` is `1` (the empty product). -/
theorem C10_empty_selection_registers :
    SelectionRegisters.init [] = .ok ⟨[]⟩
    ∧ (⟨[]⟩ : SelectionRegisters).to_flat_idx [] = .ok 0
    ∧ (⟨[]⟩ : SelectionRegisters).total_iteration_size = 1 := by
  refine ⟨by decide, by decide, by decide⟩

theorem splitQubitsGo_names {α : Type} (regs : List Register) (qs : List α) (base : Nat) :
    (splitQubitsGo regs qs base).map Prod.fst = regs.map Register.name := by
  induction regs generalizing base with
  | nil => rfl
  | cons reg rest ih => simp [splitQubitsGo, ih]

theorem splitQubitsGo_shift {α : Type} (regs : List Register) (qs : List α)
    (b base : Nat) : splitQubitsGo regs qs (b + base) = splitQubitsGo regs (qs.drop b) base := by
  induction regs generalizing base with
  | nil => rfl
  | cons reg rest ih =>
      simp only [splitQubitsGo, List.drop_drop]
      congr 1
      rw [Nat.add_assoc]
      exact ih (base + reg.bitsize)

theorem dictGet_cons_ne {β : Type} (n k : String) (v : β) (d : List (String × β))
    (h : n ≠ k) : dictGet ((n, v) :: d) k = dictGet d k := by
  simp only [dictGet, List.filter_cons]
  rw [if_neg (by simpa using h)]

theorem dictGet_cons_not_mem {β : Type} (n : String) (v : β) (d : List (String × β))
    (h : ∀ p ∈ d, p.1 ≠ n) : dictGet ((n, v) :: d) n = some v := by
  simp only [dictGet, List.filter_cons]
  rw [if_pos (by simp), List.filter_eq_nil_iff.2 (by simpa using h)]
  rfl

theorem mergeQubitsGo_cons_of_not_mem {α : Type} (regs : List Register) (n : String)
    (v : QubitArg α) (d : List (String × QubitArg α))
    (h : n ∉ regs.map Register.name) :
    mergeQubitsGo regs ((n, v) :: d) = mergeQubitsGo regs d := by
  induction regs with
  | nil => rfl
  | cons reg rest ih =>
      simp only [List.map_cons, List.mem_cons, not_or] at h
      simp only [mergeQubitsGo]
      rw [dictGet_cons_ne n reg.name v d h.1, ih h.2]

theorem split_merge_round_trip_go {α : Type} (regs : List Register) (qs : List α)
    (hnd : (regs.map Register.name).Nodup)
    (hlen : qs.length = (regs.map Register.bitsize).sum) :
    mergeQubitsGo regs ((splitQubitsGo regs qs 0).map (fun p => (p.1, QubitArg.seq p.2))) =
      .ok qs := by
  induction regs generalizing qs with
  | nil =>
      simp only [List.map_nil, List.sum_nil] at hlen
      rw [List.length_eq_zero.mp hlen]
      rfl
  | cons reg rest ih =>
      simp only [List.map_cons, List.sum_cons] at hlen
      simp only [List.map_cons, List.nodup_cons] at hnd
      have hshift : splitQubitsGo rest qs (0 + reg.bitsize) =
          splitQubitsGo rest (qs.drop reg.bitsize) 0 := by
        rw [Nat.zero_add, ← Nat.add_zero reg.bitsize]
        exact splitQubitsGo_shift rest qs reg.bitsize 0
      have hkeys : ((splitQubitsGo rest (qs.drop reg.bitsize) 0).map
          (fun p => (p.1, QubitArg.seq p.2))).map Prod.fst = rest.map Register.name := by
        rw [List.map_map]
        exact splitQubitsGo_names rest (qs.drop reg.bitsize) 0
      simp only [splitQubitsGo, List.drop_zero, hshift, List.map_cons, mergeQubitsGo]
      rw [dictGet_cons_not_mem _ _ _ (fun p hp hpn => hnd.1 (by
        rw [← hpn, ← hkeys]
        exact List.mem_map_of_mem Prod.fst hp))]
      have htake : (qs.take reg.bitsize).length = reg.bitsize := by
        rw [List.length_take]
        omega
      simp only [QubitArg.toList, htake, if_pos rfl]
      rw [mergeQubitsGo_cons_of_not_mem _ _ _ _ hnd.1,
        ih (qs.drop reg.bitsize) hnd.2 (by rw [List.length_drop]; omega)]
      simp [Except.map, List.take_append_drop]

theorem init_ok_nodup (regs : List Register) (r : Registers)
    (h : Registers.init regs = .ok r) :
    r = ⟨regs⟩ ∧ (regs.map Register.name).Nodup := by
  unfold Registers.init at h
  by_cases hc : regs.length ≠ ((regs.map Register.name).dedup).length
  · rw [if_pos hc] at h
    cases h
  · rw [if_neg hc] at h
    cases h
    refine ⟨rfl, ?_⟩
    push_neg at hc
    have hd := dedup_length_eq_iff (l := regs.map Register.name)
    rw [List.length_map] at hd
    exact hd.1 hc.symm

/-- C1: for every constructed `Registers` instance and every flat handle
sequence of length exactly `bitsize`, merging the partition produced by
`split_qubits` returns the original flat sequence. -/
theorem C1_split_merge_round_trip {α : Type} (regs : List Register) (r : Registers)
    (qs : List α) (hinit : Registers.init regs = .ok r)
    (hlen : qs.length = r.bitsize) :
    r.merge_qubits ((r.split_qubits qs).map (fun p => (p.1, QubitArg.seq p.2))) =
      .ok qs := by
  obtain ⟨heq, hnd⟩ := init_ok_nodup regs r hinit
  subst heq
  exact split_merge_round_trip_go regs qs hnd (by simpa [Registers.bitsize] using hlen)

/-- C1 witness: the round trip at registers `{a: 1, b: 2}` on the flat
sequence `[10, 20, 30]`. -/
theorem C1_split_merge_round_trip_witness :
    Registers.init [⟨"a", 1⟩, ⟨"b", 2⟩] = .ok ⟨[⟨"a", 1⟩, ⟨"b", 2⟩]⟩
    ∧ ([10, 20, 30] : List Nat).length = (⟨[⟨"a", 1⟩, ⟨"b", 2⟩]⟩ : Registers).bitsize
    ∧ (⟨[⟨"a", 1⟩, ⟨"b", 2⟩]⟩ : Registers).merge_qubits
        (((⟨[⟨"a", 1⟩, ⟨"b", 2⟩]⟩ : Registers).split_qubits ([10, 20, 30] : List Nat)).map
          (fun p => (p.1, QubitArg.seq p.2))) = .ok [10, 20, 30] :=
  ⟨by decide, by decide,
    C1_split_merge_round_trip [⟨"a", 1⟩, ⟨"b", 2⟩] ⟨[⟨"a", 1⟩, ⟨"b", 2⟩]⟩
      ([10, 20, 30] : List Nat) (by decide) (by decide)⟩

theorem splitQubitsGo_flatten {α : Type} (regs : List Register) (qs : List α) :
    ((splitQubitsGo regs qs 0).map Prod.snd).flatten =
      qs.take ((regs.map Register.bitsize).sum) := by
  induction regs generalizing qs with
  | nil => simp [splitQubitsGo]
  | cons reg rest ih =>
      have hshift : splitQubitsGo rest qs (0 + reg.bitsize) =
          splitQubitsGo rest (qs.drop reg.bitsize) 0 := by
        rw [Nat.zero_add, ← Nat.add_zero reg.bitsize]
        exact splitQubitsGo_shift rest qs reg.bitsize 0
      simp only [splitQubitsGo, List.drop_zero, hshift, List.map_cons, List.flatten_cons,
        List.map_cons, List.sum_cons]
      rw [ih (qs.drop reg.bitsize), List.take_add]

/-- C5: `split_qubits` has no failure path and checks no length: for every
handle sequence (of any length) it returns one named entry per register in
declaration order, the entries jointly holding the first `bitsize` handles —
so a sequence shorter than `bitsize` is silently spread with the trailing
registers truncated (possibly empty) rather than an error being raised. -/
theorem C5_split_qubits_unchecked_truncation {α : Type} (r : Registers) (qs : List α) :
    (r.split_qubits qs).map Prod.fst = r.registers.map Register.name
    ∧ ((r.split_qubits qs).map Prod.snd).flatten = qs.take r.bitsize
    ∧ (((r.split_qubits qs).map Prod.snd).flatten).length = min r.bitsize qs.length := by
  refine ⟨splitQubitsGo_names r.registers qs 0, splitQubitsGo_flatten r.registers qs, ?_⟩
  show ((splitQubitsGo r.registers qs 0).map Prod.snd).flatten.length = min r.bitsize qs.length
  rw [splitQubitsGo_flatten r.registers qs, List.length_take]
  rfl

theorem natDecimal_lt_10 (n : Nat) (h : n < 10) :
    natDecimal n = String.mk [Char.ofNat (48 + n)] := by
  rw [natDecimal]
  rw [dif_pos h]

theorem natDecimal_ge_10 (n : Nat) (h : ¬ n < 10) :
    natDecimal n = natDecimal (n / 10) ++ String.mk [Char.ofNat (48 + n % 10)] := by
  conv_lhs => rw [natDecimal]
  rw [dif_neg h]

/-- The decimal value of a digit string: the inverse used to prove that the
decimal rendering is injective. -/
def decVal (s : List Char) : Nat :=
  s.foldl (fun a c => 10 * a + (c.toNat - 48)) 0

theorem decVal_append_digit (xs : List Char) (c : Char) :
    decVal (xs ++ [c]) = 10 * decVal xs + (c.toNat - 48) := by
  simp [decVal, List.foldl_append]

theorem charVal_digit : ∀ d : Nat, d < 10 → (Char.ofNat (48 + d)).toNat = 48 + d := by
  decide

theorem decVal_natDecimal (n : Nat) : decVal (natDecimal n).data = n := by
  induction n using Nat.strong_induction_on with
  | _ n ih =>
    by_cases h : n < 10
    · rw [natDecimal_lt_10 n h]
      show decVal [Char.ofNat (48 + n)] = n
      simp [decVal, charVal_digit n h]
    · rw [natDecimal_ge_10 n h, String.data_append]
      show decVal ((natDecimal (n / 10)).data ++ [Char.ofNat (48 + n % 10)]) = n
      rw [decVal_append_digit,
        ih (n / 10) (Nat.div_lt_self (by omega) (by norm_num)),
        charVal_digit _ (Nat.mod_lt n (by norm_num))]
      omega

theorem natDecimal_injective : Function.Injective natDecimal := by
  intro a b h
  have := congrArg (fun s => decVal s.data) h
  simpa [decVal_natDecimal] using this

theorem string_append_left_cancel (nm x y : String) (h : nm ++ x = nm ++ y) : x = y := by
  have hd := congrArg String.data h
  rw [String.data_append, String.data_append] at hd
  exact String.ext (List.append_cancel_left hd)

theorem qubitsForReg_length (nm : String) (bitsize : Nat) :
    (qubitsForReg nm bitsize).length = bitsize := by
  unfold qubitsForReg
  split
  case isTrue h => simp [h]
  case isFalse h => simp

theorem qubitsForReg_nodup (nm : String) (bitsize : Nat) :
    (qubitsForReg nm bitsize).Nodup := by
  unfold qubitsForReg
  split
  · exact List.nodup_singleton nm
  · refine List.Nodup.map ?_ (List.nodup_range bitsize)
    intro i j hij
    exact natDecimal_injective (string_append_left_cancel nm _ _ hij)

/-- C9 (counterexample): on the legal collection `{x0: 1, x: 2}` the handle
allocated for register `x0` is named `"x0"` and the first handle allocated
for register `x` is also named `"x0"`; `cirq.NamedQubit` compares by name,
so the two registers' handle groups overlap, refuting the claimed
all-distinctness of one call's handles. -/
theorem C9_counterexample :
    Registers.init [⟨"x0", 1⟩, ⟨"x", 2⟩] = .ok ⟨[⟨"x0", 1⟩, ⟨"x", 2⟩]⟩
    ∧ ((⟨[⟨"x0", 1⟩, ⟨"x", 2⟩]⟩ : Registers).get_named_qubits).map Prod.snd =
        [["x0"], ["x0", "x1"]]
    ∧ ¬ ([["x0"], ["x0", "x1"]] : List (List String)).flatten.Nodup := by
  have h0 : natDecimal 0 = "0" := by
    rw [natDecimal_lt_10 0 (by norm_num)]
  have h1 : natDecimal 1 = "1" := by
    rw [natDecimal_lt_10 1 (by norm_num)]
  have happ0 : "x" ++ "0" = "x0" := by decide
  have happ1 : "x" ++ "1" = "x1" := by decide
  refine ⟨by decide, ?_, by decide⟩
  simp [Registers.get_named_qubits, qubitsForReg, List.range_succ, h0, h1, happ0, happ1]

/-- C9 (amended): `get_named_qubits` returns one entry per register in
declaration order; the entry of a register of bitsize 1 is the single handle
named exactly the register name, any other entry holds `bitsize` handles
named name-plus-decimal-index; the handles WITHIN one register are mutually
distinct — but handles of different registers may coincide (see the
counterexample), and the map is deterministic, so equal calls return equal
handles. -/
theorem C9_get_named_qubits_structure (r : Registers) :
    (r.get_named_qubits).map Prod.fst = r.registers.map Register.name
    ∧ List.Forall₂ (fun (reg : Register) (p : String × List String) =>
        p.1 = reg.name
        ∧ p.2.length = reg.bitsize
        ∧ p.2.Nodup
        ∧ p.2 = (if reg.bitsize = 1 then [reg.name]
                 else (List.range reg.bitsize).map (fun i => reg.name ++ natDecimal i)))
      r.registers r.get_named_qubits := by
  constructor
  · simp [Registers.get_named_qubits, List.map_map, Function.comp]
  · unfold Registers.get_named_qubits
    induction r.registers with
    | nil => exact List.Forall₂.nil
    | cons reg rest ih =>
        exact List.Forall₂.cons
          ⟨rfl, qubitsForReg_length reg.name reg.bitsize,
            qubitsForReg_nodup reg.name reg.bitsize, rfl⟩ ih

theorem suffixProducts_head (L : List Int) :
    ∃ t, suffixProducts L = L.prod :: t := by
  induction L with
  | nil => exact ⟨[], by simp [suffixProducts]⟩
  | cons x L ih =>
      obtain ⟨t, ht⟩ := ih
      refine ⟨L.prod :: t, ?_⟩
      rw [suffixProducts, ht, List.prod_cons]

theorem suffixProducts_cons (x : Int) (L : List Int) :
    suffixProducts (x :: L) = (x * L.prod) :: suffixProducts L := by
  obtain ⟨t, ht⟩ := suffixProducts_head L
  rw [suffixProducts, ht]

theorem prod_mem_suffixProducts (L : List Int) : L.prod ∈ suffixProducts L := by
  obtain ⟨t, ht⟩ := suffixProducts_head L
  rw [ht]
  exact List.mem_cons_self _ _

theorem suffixProducts_nonneg (L : List Int) (h : ∀ x ∈ L, 0 ≤ x) :
    ∀ p ∈ suffixProducts L, 0 ≤ p := by
  induction L with
  | nil =>
      intro p hp
      simp [suffixProducts] at hp
      omega
  | cons x L ih =>
      intro p hp
      rw [suffixProducts_cons, List.mem_cons] at hp
      rcases hp with hp | hp
      · subst hp
        exact mul_nonneg (h x (List.mem_cons_self x L))
          (List.prod_nonneg (fun a ha => h a (List.mem_cons_of_mem x ha)))
      · exact ih (fun a ha => h a (List.mem_cons_of_mem x ha)) p hp

theorem specFlatIdx_nil (L : List Int) : specFlatIdx L [] = 0 := rfl

theorem specFlatIdx_cons (L : Int) (Ls : List Int) (v : Int) (vs : List Int) :
    specFlatIdx (L :: Ls) (v :: vs) = v * Ls.prod + specFlatIdx Ls vs := by
  obtain ⟨t, ht⟩ := suffixProducts_head Ls
  simp only [specFlatIdx, suffixProducts_cons, List.drop_succ_cons, List.drop_zero]
  conv_lhs => rw [ht]
  rw [List.zip_cons_cons, List.map_cons, List.sum_cons]
  congr 2
  rw [ht]
  rfl

theorem range_mul_flatMap (a b : Nat) :
    List.range (a * b) =
      (List.range a).flatMap (fun i => (List.range b).map (fun j => i * b + j)) := by
  induction a with
  | zero => simp
  | succ a ih =>
      rw [List.range_succ, List.flatMap_append, ← ih, Nat.succ_mul, List.range_add]
      simp

theorem lexTuples_map_specFlatIdx (Ls : List Int) (h : ∀ L ∈ Ls, 0 ≤ L) :
    (lexTuples Ls).map (specFlatIdx Ls) = (List.range Ls.prod.toNat).map Int.ofNat := by
  induction Ls with
  | nil =>
      simp only [lexTuples, List.map_cons, List.map_nil]
      decide
  | cons L Ls ih =>
      have hL : 0 ≤ L := h L (List.mem_cons_self L Ls)
      have hP : 0 ≤ Ls.prod :=
        List.prod_nonneg (fun a ha => h a (List.mem_cons_of_mem L ha))
      have htail : ∀ x ∈ Ls, 0 ≤ x := fun a ha => h a (List.mem_cons_of_mem L ha)
      have htoNat : (L * Ls.prod).toNat = L.toNat * Ls.prod.toNat := by
        rw [← Nat.cast_inj (R := Int)]
        push_cast
        rw [Int.toNat_of_nonneg hL, Int.toNat_of_nonneg hP,
          Int.toNat_of_nonneg (mul_nonneg hL hP)]
      rw [lexTuples, List.map_flatMap, List.prod_cons, htoNat, range_mul_flatMap,
        List.map_flatMap]
      congr 1
      funext v
      rw [List.map_map, List.map_map]
      have hcast : (Ls.prod.toNat : Int) = Ls.prod := Int.toNat_of_nonneg hP
      calc (lexTuples Ls).map (specFlatIdx (L :: Ls) ∘ fun t => (v : Int) :: t)
          = (lexTuples Ls).map (fun t => (v : Int) * Ls.prod + specFlatIdx Ls t) := by
            apply List.map_congr_left
            intro t _
            exact specFlatIdx_cons L Ls (v : Int) t
        _ = ((lexTuples Ls).map (specFlatIdx Ls)).map (fun x => (v : Int) * Ls.prod + x) := by
            rw [List.map_map]
            exact List.map_congr_left fun t _ => rfl
        _ = ((List.range Ls.prod.toNat).map Int.ofNat).map
              (fun x => (v : Int) * Ls.prod + x) := by rw [ih htail]
        _ = (List.range Ls.prod.toNat).map (Int.ofNat ∘ fun j => v * Ls.prod.toNat + j) := by
            rw [List.map_map]
            apply List.map_congr_left
            intro j _
            show (v : Int) * Ls.prod + (j : Int) = ((v * Ls.prod.toNat + j : Nat) : Int)
            push_cast
            rw [hcast]

theorem wrapS64_eq_self (x : Int) (h1 : -(2 ^ 63) ≤ x) (h2 : x < 2 ^ 63) :
    wrapS64 x = x := by
  unfold wrapS64
  omega

theorem npDtypeOf_int64 (xs : List Int) (h : ∀ x ∈ xs, 0 ≤ x ∧ x < 2 ^ 63) :
    npDtypeOf xs = .int64 := by
  unfold npDtypeOf
  rw [if_pos]
  rw [List.all_eq_true]
  intro x hx
  have := h x hx
  simp only [Bool.and_eq_true, decide_eq_true_eq]
  omega

theorem npMulAccumFrom_no_wrap (xs : List Int) :
    ∀ a : Int, (∀ p ∈ npMulAccumFrom (fun x => x) a xs, 0 ≤ p ∧ p < 2 ^ 63) →
    npMulAccumFrom wrapS64 a xs = npMulAccumFrom (fun x => x) a xs := by
  induction xs with
  | nil => intro a _; rfl
  | cons x xs ih =>
      intro a h
      have hhead : 0 ≤ a * x ∧ a * x < 2 ^ 63 :=
        h (a * x) (by simp [npMulAccumFrom])
      have hw : wrapS64 (a * x) = a * x :=
        wrapS64_eq_self (a * x) (by omega) hhead.2
      simp only [npMulAccumFrom, hw]
      rw [ih (a * x) (fun p hp => h p (by simp [npMulAccumFrom, List.mem_cons]; right; exact hp))]

theorem npMulAccum_no_wrap (xs : List Int)
    (h : ∀ p ∈ npMulAccum (fun x => x) xs, 0 ≤ p ∧ p < 2 ^ 63) :
    npMulAccum wrapS64 xs = npMulAccum (fun x => x) xs := by
  cases xs with
  | nil => rfl
  | cons x xs =>
      simp only [npMulAccum]
      rw [npMulAccumFrom_no_wrap xs x
        (fun p hp => h p (by simp [npMulAccum, List.mem_cons]; right; exact hp))]

theorem npMulAccumFrom_id_append (xs : List Int) (y : Int) :
    ∀ a : Int, npMulAccumFrom (fun x => x) a (xs ++ [y]) =
      npMulAccumFrom (fun x => x) a xs ++ [a * xs.prod * y] := by
  induction xs with
  | nil =>
      intro a
      simp [npMulAccumFrom]
  | cons x xs ih =>
      intro a
      have h1 : npMulAccumFrom (fun x => x) a ((x :: xs) ++ [y]) =
          (a * x) :: npMulAccumFrom (fun x => x) (a * x) (xs ++ [y]) := rfl
      have h2 : npMulAccumFrom (fun x => x) a (x :: xs) =
          (a * x) :: npMulAccumFrom (fun x => x) (a * x) xs := rfl
      rw [h1, h2, ih (a * x), List.cons_append, List.prod_cons]
      congr 3
      ring

theorem npMulAccum_id_append (xs : List Int) (y : Int) :
    npMulAccum (fun x => x) (xs ++ [y]) =
      npMulAccum (fun x => x) xs ++ [xs.prod * y] := by
  cases xs with
  | nil => simp [npMulAccum, npMulAccumFrom]
  | cons x xs =>
      simp only [List.cons_append, npMulAccum, npMulAccumFrom_id_append xs y x,
        List.prod_cons, List.cons_append]

theorem npMulAccum_id_reverse (L : List Int) :
    (npMulAccum (fun x => x) L.reverse).reverse ++ [1] = suffixProducts L := by
  induction L with
  | nil => rfl
  | cons x L ih =>
      rw [List.reverse_cons, npMulAccum_id_append, List.reverse_append,
        suffixProducts_cons, List.prod_reverse]
      simp only [List.reverse_cons, List.reverse_nil, List.nil_append, List.cons_append]
      rw [← ih, mul_comm]

theorem npSuffixProd_exact (L : List Int) (hL : ∀ x ∈ L, 0 ≤ x ∧ x < 2 ^ 63)
    (hS : ∀ p ∈ suffixProducts L, p < 2 ^ 63) :
    npSuffixProd L = suffixProducts L := by
  have hrev : ∀ p ∈ npMulAccum (fun x => x) L.reverse, p ∈ suffixProducts L := by
    intro p hp
    rw [← npMulAccum_id_reverse L]
    exact List.mem_append_left _ (List.mem_reverse.2 hp)
  have hnn : ∀ p ∈ suffixProducts L, 0 ≤ p :=
    suffixProducts_nonneg L (fun x hx => (hL x hx).1)
  unfold npSuffixProd
  rw [npDtypeOf_int64 L hL]
  show (npMulAccum wrapS64 L.reverse).reverse ++ [1] = suffixProducts L
  rw [npMulAccum_no_wrap L.reverse
    (fun p hp => ⟨hnn p (hrev p hp), hS p (hrev p hp)⟩)]
  exact npMulAccum_id_reverse L

theorem specFlatIdx_nonneg (Ls vs : List Int)
    (h : List.Forall₂ (fun v L => 0 ≤ v ∧ v < L) vs Ls) :
    (∀ x ∈ Ls, 0 ≤ x) → 0 ≤ specFlatIdx Ls vs := by
  induction h with
  | nil => intro _; simp [specFlatIdx]
  | @cons v L vs Ls hv htail ih =>
      intro hLs
      rw [specFlatIdx_cons]
      have hP : 0 ≤ Ls.prod :=
        List.prod_nonneg (fun a ha => hLs a (List.mem_cons_of_mem L ha))
      have := ih (fun a ha => hLs a (List.mem_cons_of_mem L ha))
      have := mul_nonneg hv.1 hP
      omega

theorem specFlatIdx_lt_prod (Ls vs : List Int)
    (h : List.Forall₂ (fun v L => 0 ≤ v ∧ v < L) vs Ls) :
    (∀ x ∈ Ls, 0 ≤ x) → specFlatIdx Ls vs < Ls.prod := by
  induction h with
  | nil =>
      intro _
      simp [specFlatIdx]
  | @cons v L vs Ls hv htail ih =>
      intro hLs
      have htl : ∀ x ∈ Ls, 0 ≤ x := fun a ha => hLs a (List.mem_cons_of_mem L ha)
      have hP : 0 ≤ Ls.prod := List.prod_nonneg htl
      have hlt := ih htl
      have hge := specFlatIdx_nonneg Ls vs htail htl
      rw [specFlatIdx_cons, List.prod_cons]
      have hm : v * Ls.prod ≤ (L - 1) * Ls.prod :=
        mul_le_mul_of_nonneg_right (by omega) hP
      have he : (L - 1) * Ls.prod = L * Ls.prod - Ls.prod := by ring
      omega

theorem zip_terms_bounds (Ls vs : List Int)
    (h : List.Forall₂ (fun v L => 0 ≤ v ∧ v < L) vs Ls) :
    (∀ x ∈ Ls, 0 ≤ x) → (∀ p ∈ suffixProducts Ls, p < 2 ^ 63) →
    ∀ q ∈ vs.zip ((suffixProducts Ls).drop 1), 0 ≤ q.1 * q.2 ∧ q.1 * q.2 < 2 ^ 63 := by
  induction h with
  | nil =>
      intro _ _ q hq
      simp at hq
  | @cons v L vs Ls hv htail ih =>
      intro hLs hS q hq
      obtain ⟨t, ht⟩ := suffixProducts_head Ls
      have htl : ∀ x ∈ Ls, 0 ≤ x := fun a ha => hLs a (List.mem_cons_of_mem L ha)
      have hStl : ∀ p ∈ suffixProducts Ls, p < 2 ^ 63 := by
        intro p hp
        exact hS p (by rw [suffixProducts_cons]; exact List.mem_cons_of_mem _ hp)
      rw [suffixProducts_cons, List.drop_succ_cons, List.drop_zero, ht,
        List.zip_cons_cons, List.mem_cons] at hq
      rcases hq with hq | hq
      · subst hq
        have hP : 0 ≤ Ls.prod := List.prod_nonneg htl
        have hLP : L * Ls.prod < 2 ^ 63 := by
          apply hS
          rw [suffixProducts_cons]
          exact List.mem_cons_self _ _
        refine ⟨mul_nonneg hv.1 hP, ?_⟩
        exact lt_of_le_of_lt (mul_le_mul_of_nonneg_right (le_of_lt hv.2) hP) hLP
      · apply ih htl hStl
        rw [ht, List.drop_succ_cons, List.drop_zero]
        exact hq

theorem foldl_wrapAdd_no_wrap (ts : List Int) :
    ∀ a : Int, (∀ t ∈ ts, 0 ≤ t) → 0 ≤ a → a + ts.sum < 2 ^ 63 →
    ts.foldl (fun acc t => wrapS64 (acc + t)) a = a + ts.sum := by
  induction ts with
  | nil =>
      intro a _ _ _
      simp
  | cons t ts ih =>
      intro a hts ha hlt
      have hsum : 0 ≤ ts.sum :=
        List.sum_nonneg (fun x hx => hts x (List.mem_cons_of_mem t hx))
      have ht0 : 0 ≤ t := hts t (List.mem_cons_self t ts)
      rw [List.sum_cons] at hlt
      rw [List.foldl_cons, wrapS64_eq_self (a + t) (by omega) (by omega),
        ih (a + t) (fun x hx => hts x (List.mem_cons_of_mem t hx)) (by omega) (by omega),
        List.sum_cons]
      ring

/-- Under the no-overflow hypotheses, `to_flat_idx` computes the exact
row-major flat index of the spec. -/
theorem to_flat_idx_exact (rs : SelectionRegisters) (vals : List Int)
    (hL : ∀ x ∈ rs.iteration_lengths, 0 ≤ x ∧ x < 2 ^ 63)
    (hS : ∀ p ∈ suffixProducts rs.iteration_lengths, p < 2 ^ 63)
    (hv : List.Forall₂ (fun v L => 0 ≤ v ∧ v < L) vals rs.iteration_lengths) :
    rs.to_flat_idx vals = .ok (specFlatIdx rs.iteration_lengths vals) := by
  have hL1 : ∀ x ∈ rs.iteration_lengths, 0 ≤ x := fun x hx => (hL x hx).1
  have hlen : vals.length = rs.registers.length := by
    rw [hv.length_eq]
    exact List.length_map _ _
  unfold SelectionRegisters.to_flat_idx
  rw [if_pos hlen, npSuffixProd_exact _ hL hS, npDtypeOf_int64 _ hL]
  simp only [npWrapOf]
  congr 1
  have hterms : (vals.zip ((suffixProducts rs.iteration_lengths).drop 1)).map
      (fun p => wrapS64 (p.1 * p.2)) =
      (vals.zip ((suffixProducts rs.iteration_lengths).drop 1)).map (fun p => p.1 * p.2) := by
    apply List.map_congr_left
    intro q hq
    have hb := zip_terms_bounds rs.iteration_lengths vals hv hL1 hS q hq
    exact wrapS64_eq_self _ (by omega) hb.2
  rw [hterms]
  have htsum : ((vals.zip ((suffixProducts rs.iteration_lengths).drop 1)).map
      (fun p => p.1 * p.2)).sum = specFlatIdx rs.iteration_lengths vals := rfl
  have hts : ∀ t ∈ (vals.zip ((suffixProducts rs.iteration_lengths).drop 1)).map
      (fun p => p.1 * p.2), 0 ≤ t := by
    intro t ht
    rw [List.mem_map] at ht
    obtain ⟨q, hq, rfl⟩ := ht
    exact (zip_terms_bounds rs.iteration_lengths vals hv hL1 hS q hq).1
  have hbound : specFlatIdx rs.iteration_lengths vals < 2 ^ 63 := by
    have h1 := specFlatIdx_lt_prod rs.iteration_lengths vals hv hL1
    have h2 := hS _ (prod_mem_suffixProducts rs.iteration_lengths)
    omega
  rw [foldl_wrapAdd_no_wrap _ 0 hts (le_refl 0) (by rw [htsum]; omega), htsum]
  omega

theorem foldl_wrapMul_from_zero (L : List Int) :
    L.foldl (fun acc x => wrapS64 (acc * x)) 0 = 0 := by
  induction L with
  | nil => rfl
  | cons x L ih =>
      rw [List.foldl_cons, zero_mul, show wrapS64 0 = 0 from by decide]
      exact ih

theorem foldl_wrapMul_zero_mem (L : List Int) :
    ∀ a : Int, (0 : Int) ∈ L → L.foldl (fun acc x => wrapS64 (acc * x)) a = 0 := by
  induction L with
  | nil =>
      intro a h
      simp at h
  | cons x L ih =>
      intro a h
      rw [List.foldl_cons]
      rcases List.mem_cons.mp h with h | h
      · rw [← h, mul_zero, show wrapS64 0 = 0 from by decide]
        exact foldl_wrapMul_from_zero L
      · exact ih _ h

theorem one_le_prod_of_one_le (L : List Int) (h : ∀ x ∈ L, 1 ≤ x) : 1 ≤ L.prod := by
  induction L with
  | nil => simp
  | cons x L ih =>
      rw [List.prod_cons]
      have hx := h x (List.mem_cons_self x L)
      have hr := ih (fun a ha => h a (List.mem_cons_of_mem x ha))
      nlinarith

theorem foldl_wrapMul_no_zero (L : List Int) :
    ∀ a : Int, (∀ x ∈ L, 1 ≤ x ∧ x < 2 ^ 63) → 0 ≤ a → a * L.prod < 2 ^ 63 →
    L.foldl (fun acc x => wrapS64 (acc * x)) a = a * L.prod := by
  induction L with
  | nil =>
      intro a _ _ _
      simp
  | cons x L ih =>
      intro a h ha hlt
      have hx := h x (List.mem_cons_self x L)
      have htl : ∀ y ∈ L, 1 ≤ y ∧ y < 2 ^ 63 := fun y hy => h y (List.mem_cons_of_mem x hy)
      have hprod1 : 1 ≤ L.prod := one_le_prod_of_one_le L (fun y hy => (htl y hy).1)
      have hax : 0 ≤ a * x := mul_nonneg ha (by omega)
      rw [List.prod_cons, ← mul_assoc] at hlt
      have haxlt : a * x < 2 ^ 63 :=
        lt_of_le_of_lt (le_mul_of_one_le_right hax hprod1) hlt
      rw [List.foldl_cons, wrapS64_eq_self (a * x) (by omega) haxlt,
        ih (a * x) htl hax hlt, List.prod_cons, mul_assoc]

theorem npProd_exact (L : List Int) (hL : ∀ x ∈ L, 0 ≤ x ∧ x < 2 ^ 63)
    (hS : ∀ p ∈ suffixProducts L, p < 2 ^ 63) : npProd L = L.prod := by
  unfold npProd
  rw [npDtypeOf_int64 L hL]
  simp only [npWrapOf]
  by_cases hz : (0 : Int) ∈ L
  · rw [foldl_wrapMul_zero_mem L 1 hz, List.prod_eq_zero hz]
  · have h1 : ∀ x ∈ L, 1 ≤ x ∧ x < 2 ^ 63 := by
      intro x hx
      have hb := hL x hx
      have hne : x ≠ 0 := fun he => hz (he ▸ hx)
      exact ⟨by omega, hb.2⟩
    have hprod : L.prod < 2 ^ 63 := hS _ (prod_mem_suffixProducts L)
    rw [foldl_wrapMul_no_zero L 1 h1 (by norm_num) (by rw [one_mul]; exact hprod), one_mul]

theorem mem_lexTuples (Ls : List Int) (hL : ∀ x ∈ Ls, 0 ≤ x) :
    ∀ t ∈ lexTuples Ls, List.Forall₂ (fun v L => 0 ≤ v ∧ v < L) t Ls := by
  induction Ls with
  | nil =>
      intro t ht
      simp [lexTuples] at ht
      subst ht
      exact List.Forall₂.nil
  | cons L Ls ih =>
      intro t ht
      simp only [lexTuples, List.mem_flatMap, List.mem_map] at ht
      obtain ⟨v, hv, t', ht', rfl⟩ := ht
      rw [List.mem_range] at hv
      refine List.Forall₂.cons ⟨Int.natCast_nonneg v, by omega⟩
        (ih (fun a ha => hL a (List.mem_cons_of_mem L ha)) t' ht')

/-- C2 (amended): for every `SelectionRegisters` whose iteration lengths and
suffix products all lie below `2^63` (so the NumPy int64 arithmetic cannot
wrap), `to_flat_idx` on one in-range value per register returns exactly
`sum(values[i] * product(L(i+1 .. n-1)))` — row-major with the
first-declared register slowest-varying — and mapping it over all value
tuples in lexicographic order yields exactly the integers
`0 .. total_iteration_size - 1`, strictly increasing, each exactly once. -/
theorem C2_to_flat_idx_row_major (rs : SelectionRegisters)
    (hL : ∀ x ∈ rs.iteration_lengths, 0 ≤ x ∧ x < 2 ^ 63)
    (hS : ∀ p ∈ suffixProducts rs.iteration_lengths, p < 2 ^ 63) :
    (∀ vals : List Int,
      List.Forall₂ (fun v L => 0 ≤ v ∧ v < L) vals rs.iteration_lengths →
      rs.to_flat_idx vals = .ok (specFlatIdx rs.iteration_lengths vals))
    ∧ (lexTuples rs.iteration_lengths).map rs.to_flat_idx =
        (List.range rs.total_iteration_size.toNat).map
          (fun k => Except.ok (Int.ofNat k)) := by
  have hL1 : ∀ x ∈ rs.iteration_lengths, 0 ≤ x := fun x hx => (hL x hx).1
  constructor
  · exact fun vals hv => to_flat_idx_exact rs vals hL hS hv
  · have htot : rs.total_iteration_size = rs.iteration_lengths.prod :=
      npProd_exact rs.iteration_lengths hL hS
    rw [htot]
    calc (lexTuples rs.iteration_lengths).map rs.to_flat_idx
        = (lexTuples rs.iteration_lengths).map
            (fun t => Except.ok (specFlatIdx rs.iteration_lengths t)) := by
          apply List.map_congr_left
          intro t ht
          exact to_flat_idx_exact rs t hL hS (mem_lexTuples rs.iteration_lengths hL1 t ht)
      _ = ((lexTuples rs.iteration_lengths).map (specFlatIdx rs.iteration_lengths)).map
            Except.ok := by
          rw [List.map_map]
          exact List.map_congr_left fun t _ => rfl
      _ = ((List.range rs.iteration_lengths.prod.toNat).map Int.ofNat).map Except.ok := by
          rw [lexTuples_map_specFlatIdx rs.iteration_lengths hL1]
      _ = (List.range rs.iteration_lengths.prod.toNat).map
            (fun k => Except.ok (Int.ofNat k)) := by rw [List.map_map]; rfl

/-- C2 (counterexample): on the legal instance with iteration lengths
`(2^32, 2^32)` and the in-range values `(2^31, 0)`, the code returns
`-(2^63)` — the int64 wrap of the exact row-major index `2^63` — so the
claimed exact formula (and with it the strictly-increasing enumeration)
fails on this `SelectionRegisters`. -/
theorem C2_counterexample :
    SelectionRegisters.init [⟨⟨"x", 32⟩, 2 ^ 32⟩, ⟨⟨"y", 32⟩, 2 ^ 32⟩] =
        .ok ⟨[⟨⟨"x", 32⟩, 2 ^ 32⟩, ⟨⟨"y", 32⟩, 2 ^ 32⟩]⟩
    ∧ ((0 : Int) ≤ 2 ^ 31 ∧ (2 ^ 31 : Int) < 2 ^ 32)
    ∧ (⟨[⟨⟨"x", 32⟩, 2 ^ 32⟩, ⟨⟨"y", 32⟩, 2 ^ 32⟩]⟩ :
        SelectionRegisters).to_flat_idx [2 ^ 31, 0] = .ok (-(2 ^ 63))
    ∧ specFlatIdx (⟨[⟨⟨"x", 32⟩, 2 ^ 32⟩, ⟨⟨"y", 32⟩, 2 ^ 32⟩]⟩ :
        SelectionRegisters).iteration_lengths [2 ^ 31, 0] = 2 ^ 63
    ∧ (-(2 ^ 63) : Int) ≠ 2 ^ 63 := by
  refine ⟨by decide, ⟨by decide, by decide⟩, by decide, by decide, by decide⟩

/-- C2 witness: the amended theorem at iteration lengths `(10, 20)`. -/
theorem C2_to_flat_idx_row_major_witness :
    (∀ x ∈ (⟨[⟨⟨"x", 4⟩, 10⟩, ⟨⟨"y", 5⟩, 20⟩]⟩ : SelectionRegisters).iteration_lengths,
        0 ≤ x ∧ x < 2 ^ 63)
    ∧ (∀ p ∈ suffixProducts (⟨[⟨⟨"x", 4⟩, 10⟩, ⟨⟨"y", 5⟩, 20⟩]⟩ :
        SelectionRegisters).iteration_lengths, p < 2 ^ 63)
    ∧ ((∀ vals : List Int,
          List.Forall₂ (fun v L => 0 ≤ v ∧ v < L) vals
            (⟨[⟨⟨"x", 4⟩, 10⟩, ⟨⟨"y", 5⟩, 20⟩]⟩ : SelectionRegisters).iteration_lengths →
          (⟨[⟨⟨"x", 4⟩, 10⟩, ⟨⟨"y", 5⟩, 20⟩]⟩ : SelectionRegisters).to_flat_idx vals =
            .ok (specFlatIdx (⟨[⟨⟨"x", 4⟩, 10⟩, ⟨⟨"y", 5⟩, 20⟩]⟩ :
              SelectionRegisters).iteration_lengths vals))
      ∧ (lexTuples (⟨[⟨⟨"x", 4⟩, 10⟩, ⟨⟨"y", 5⟩, 20⟩]⟩ :
            SelectionRegisters).iteration_lengths).map
          (⟨[⟨⟨"x", 4⟩, 10⟩, ⟨⟨"y", 5⟩, 20⟩]⟩ : SelectionRegisters).to_flat_idx =
        (List.range (⟨[⟨⟨"x", 4⟩, 10⟩, ⟨⟨"y", 5⟩, 20⟩]⟩ :
            SelectionRegisters).total_iteration_size.toNat).map
          (fun k => Except.ok (Int.ofNat k))) :=
  ⟨by decide, by decide, C2_to_flat_idx_row_major _ (by decide) (by decide)⟩
